import Mathlib

/-!
Verification of the tile-rearrangement qualifier (`qualifier/qualifier.py`).

The module under verification has three functions:

* `is_unique collection` — sorts the list and checks, via `enumerate`, that the
  sorted list equals `0, 1, ..., len - 1`;
* `valid_input image_size tile_size ordering` — floor-divides the image
  dimensions by the tile dimensions (a `ZeroDivisionError` when a tile
  dimension is zero), then checks divisibility, the length of the ordering,
  and `is_unique`;
* `rearrange_tiles` — validates, then crops the tiles of the source image in
  row-major order, permutes them by the ordering, and pastes them into a
  freshly allocated buffer of the same size and mode.

Python's `//` and `%` on `int` are floored division and modulo, so they are
embedded as `Int.fdiv` and `Int.fmod`.  A raised exception is embedded as the
`Except.error` case: `ValueError` and `ZeroDivisionError` are the two kinds
the core can produce.  Saving the destination file is embedded as returning
the destination buffer in `Except.ok`; an error return therefore means that
no destination file is written.
-/

/-- A Python exception, as far as the core under verification can raise one. -/
inductive PyError where
  | valueError (msg : String)
  | zeroDivisionError
deriving DecidableEq

/-- Modelled from the spec: an image buffer is "an owned, mutable rectangular
pixel store with a color mode (channel layout) and explicit width/height".
Pixel values are abstract as far as the core goes; we embed them as `Nat`. -/
structure Img where
  mode : String
  width : Nat
  height : Nat
  pix : Nat → Nat → Nat

instance : Inhabited Img := ⟨⟨"", 0, 0, fun _ _ => 0⟩⟩

/-- Pixel lookup at integer coordinates; out-of-bounds reads yield the zero
pixel (the padding PIL uses for out-of-bounds crops). -/
def pixAt (img : Img) (x y : Int) : Nat :=
  if 0 ≤ x ∧ 0 ≤ y ∧ x < img.width ∧ y < img.height then
    img.pix x.toNat y.toNat
  else 0

/-- Pixel lookup at natural coordinates. -/
def getPix (img : Img) (x y : Nat) : Nat :=
  pixAt img x y

/-- Modelled from the spec: the codec collaborator's `buffer.crop(rect)`,
returning the rectangular sub-region `[x0, y0, x1, y1)` as an independent
tile copy (out-of-range source coordinates read as the zero pixel). -/
def Img.crop (img : Img) (box : Int × Int × Int × Int) : Img :=
  { mode := img.mode
    width := (box.2.2.1 - box.1).toNat
    height := (box.2.2.2 - box.2.1).toNat
    pix := fun a b => pixAt img (box.1 + a) (box.2.1 + b) }

/-- Modelled from the spec: the codec collaborator's
`buffer.paste(tile, topLeftPoint)`, writing the tile into the buffer at the
given top-left corner and leaving every other pixel unchanged. -/
def Img.paste (img : Img) (tile : Img) (p : Int × Int) : Img :=
  { img with
    pix := fun c r =>
      if p.1 ≤ (c : Int) ∧ (c : Int) < p.1 + tile.width ∧
          p.2 ≤ (r : Int) ∧ (r : Int) < p.2 + tile.height then
        pixAt tile ((c : Int) - p.1) ((r : Int) - p.2)
      else img.pix c r }

/-- Modelled from the spec: the codec collaborator's `new-buffer(mode, size)`,
a writable buffer of the given mode and size, initially all zero pixels. -/
def Img.new (mode : String) (size : Nat × Nat) : Img :=
  { mode := mode, width := size.1, height := size.2, pix := fun _ _ => 0 }

/-- The body of Python's `all(i == el for i, el in enumerate(collection))`:
compare each element with its index, the index starting at `n`. -/
def enumCheck : Nat → List Int → Bool
  | _, [] => true
  | n, el :: rest => ((n : Int) == el) && enumCheck (n + 1) rest

/-- `is_unique` from the source: sort the collection and check that the
result is exactly `0, 1, ..., len - 1`. -/
def is_unique (collection : List Int) : Bool :=
  enumCheck 0 (List.insertionSort (· ≤ ·) collection)

/-- `get_tile` from the source: the tile of size `tile_size` at column `i`,
row `j`, obtained by cropping the box
`(tw * i, th * j, tw * i + tw, th * j + th)`. -/
def get_tile (image : Img) (tile_size : Int × Int) (i j : Int) : Img :=
  image.crop (tile_size.1 * i, tile_size.2 * j,
    tile_size.1 * i + tile_size.1, tile_size.2 * j + tile_size.2)

/-- `valid_input` from the source.  `tile_rows` and `tile_cols` are computed
by floored division before the boolean conditions are evaluated, so a zero
tile height (line 39) or zero tile width (line 40) raises `ZeroDivisionError`
instead of returning a boolean. -/
def valid_input (image_size : Int × Int) (tile_size : Int × Int)
    (ordering : List Int) : Except PyError Bool :=
  let image_width := image_size.1
  let image_height := image_size.2
  let tile_width := tile_size.1
  let tile_height := tile_size.2
  if tile_height = 0 then .error .zeroDivisionError
  else if tile_width = 0 then .error .zeroDivisionError
  else
    let tile_rows := Int.fdiv image_height tile_height
    let tile_cols := Int.fdiv image_width tile_width
    .ok (decide (Int.fmod image_width tile_width = 0)
      && decide (Int.fmod image_height tile_height = 0)
      && decide ((ordering.length : Int) = tile_rows * tile_cols)
      && is_unique ordering)

/-- The fixed message of the `ValueError` raised on invalid input. -/
def invalidMsg : String :=
  "The tile size or ordering are not valid for the given image"

/-- `rearrange_tiles` from the source.  The source image is already opened
(`image`); the destination buffer is allocated with the source's mode and
size; `tile_rows`/`tile_cols` are floor-divided before validation (so a zero
tile dimension raises `ZeroDivisionError` at that point, as in lines 72-73);
then validation either raises the `ValueError` or the tiles are cropped in
row-major order, permuted by the ordering, and pasted.  The saved destination
image is returned in `Except.ok`.  The list indexings `ordering[i]` and
`out_tiles[i * tile_cols + j]` are embedded with `List.getD`: validation
guarantees every reachable index is in range, where Python and `getD` agree. -/
def rearrange_tiles (image : Img) (tile_size : Int × Int)
    (ordering : List Int) : Except PyError Img :=
  let out_image := Img.new image.mode (image.width, image.height)
  let image_size : Int × Int := ((image.width : Int), (image.height : Int))
  let tile_width := tile_size.1
  let tile_height := tile_size.2
  if tile_height = 0 then .error .zeroDivisionError
  else if tile_width = 0 then .error .zeroDivisionError
  else
    let tile_rows := Int.fdiv (image.height : Int) tile_height
    let tile_cols := Int.fdiv (image.width : Int) tile_width
    match valid_input image_size tile_size ordering with
    | .error e => .error e
    | .ok false => .error (.valueError invalidMsg)
    | .ok true =>
      let tiles : List Img :=
        (List.range tile_rows.toNat).flatMap (fun i : Nat =>
          (List.range tile_cols.toNat).map (fun j : Nat =>
            get_tile image tile_size (j : Int) (i : Int)))
      let out_tiles : List Img :=
        (List.range tiles.length).map (fun i =>
          tiles.getD (ordering.getD i 0).toNat default)
      let result : Img :=
        (List.range tile_rows.toNat).foldl (fun acc i =>
          (List.range tile_cols.toNat).foldl (fun acc2 j =>
            acc2.paste (out_tiles.getD (i * tile_cols.toNat + j) default)
              (tile_width * (j : Int), tile_height * (i : Int))) acc) out_image
      .ok result

/-- A concrete 4x4 test image: pixel `(x, y)` has value `4 * y + x`. -/
def testImg : Img :=
  { mode := "L", width := 4, height := 4, pix := fun x y => 4 * y + x }

theorem enumCheck_eq_true_iff (l : List Int) :
    ∀ n, enumCheck n l = true ↔ l = (List.range' n l.length).map (fun n : Nat => (n : Int)) := by
  induction l with
  | nil => intro n; simp [enumCheck]
  | cons x xs ih =>
    intro n
    rw [enumCheck, Bool.and_eq_true, beq_iff_eq, ih (n + 1)]
    rw [List.length_cons, List.range'_succ, List.map_cons]
    constructor
    · rintro ⟨h1, h2⟩; rw [← h1, ← h2]
    · intro h
      rw [List.cons_eq_cons] at h
      exact ⟨h.1.symm, h.2⟩

theorem is_unique_eq_true_iff_sorted (L : List Int) :
    is_unique L = true ↔
      List.insertionSort (· ≤ ·) L = (List.range L.length).map (fun n : Nat => (n : Int)) := by
  rw [is_unique, enumCheck_eq_true_iff, List.length_insertionSort,
    List.range_eq_range']

theorem sorted_rangeMap (n : Nat) :
    List.Sorted (· ≤ ·) ((List.range n).map (fun n : Nat => (n : Int))) := by
  refine List.Pairwise.map _ (fun a b h => ?_) (List.pairwise_le_range n)
  omega

theorem is_unique_iff_perm (L : List Int) :
    is_unique L = true ↔ L.Perm ((List.range L.length).map (fun n : Nat => (n : Int))) := by
  rw [is_unique_eq_true_iff_sorted]
  constructor
  · intro h
    have hp := List.perm_insertionSort (· ≤ ·) L
    rw [h] at hp
    exact hp.symm
  · intro h
    exact List.eq_of_perm_of_sorted ((List.perm_insertionSort _ L).trans h)
      (List.sorted_insertionSort _ L) (sorted_rangeMap L.length)

theorem mem_bound_of_is_unique {L : List Int} (h : is_unique L = true) :
    ∀ x ∈ L, 0 ≤ x ∧ x < L.length := by
  rw [is_unique_iff_perm] at h
  intro x hx
  have hmem := h.mem_iff.mp hx
  simp only [List.mem_map, List.mem_range] at hmem
  obtain ⟨j, hj, rfl⟩ := hmem
  exact ⟨by omega, by omega⟩

/-- C4: for every list `L` of integers, `is_unique L` returns true iff sorting
`L` yields exactly the sequence `0, 1, ..., len L - 1`; in particular the
empty list yields true, and any list containing a negative or out-of-range
value yields false. -/
theorem claim_C4_is_unique_sorted (L : List Int) :
    (is_unique L = true ↔
      List.insertionSort (· ≤ ·) L = (List.range L.length).map (fun n : Nat => (n : Int))) ∧
    is_unique [] = true ∧
    (∀ x ∈ L, (x < 0 ∨ (L.length : Int) ≤ x) → is_unique L = false) := by
  refine ⟨is_unique_eq_true_iff_sorted L, by decide, ?_⟩
  intro x hx hbad
  cases h : is_unique L with
  | false => rfl
  | true =>
    exfalso
    obtain ⟨h1, h2⟩ := mem_bound_of_is_unique h x hx
    omega

/-- Witness for C4 at the concrete lists `[2, 0, 1]`, `[]` and `[0, 2, 5]`. -/
theorem claim_C4_witness :
    (is_unique [2, 0, 1] = true ↔
      List.insertionSort (· ≤ ·) [2, 0, 1] = (List.range 3).map (fun n : Nat => (n : Int))) ∧
    is_unique [] = true ∧ is_unique [0, 2, 5] = false :=
  ⟨(claim_C4_is_unique_sorted [2, 0, 1]).1,
    (claim_C4_is_unique_sorted []).2.1,
    (claim_C4_is_unique_sorted [0, 2, 5]).2.2 5 (by decide) (by decide)⟩

theorem valid_input_characterization (W H tw th : Int) (L : List Int)
    (htw : tw ≠ 0) (hth : th ≠ 0) :
    valid_input (W, H) (tw, th) L = .ok true ↔
      (Int.fmod W tw = 0 ∧ Int.fmod H th = 0 ∧
        (L.length : Int) = Int.fdiv H th * Int.fdiv W tw ∧
        L.Perm ((List.range L.length).map (fun n : Nat => (n : Int)))) := by
  rw [valid_input]
  simp only [hth, htw, if_false]
  rw [← is_unique_iff_perm]
  constructor
  · intro h
    rw [Except.ok.injEq] at h
    simp only [Bool.and_eq_true, decide_eq_true_eq] at h
    exact ⟨h.1.1.1, h.1.1.2, h.1.2, h.2⟩
  · rintro ⟨h1, h2, h3, h4⟩
    simp [h1, h2, h3, h4]

/-- C3: for every image size `(W, H)`, tile size `(tw, th)` and ordering,
`valid_input` returns true iff `W mod tw = 0`, `H mod th = 0`, the ordering
has length `(H / th) * (W / tw)`, and the ordering is a permutation of
`[0, length)` (arithmetic floored, as in Python).  The theorem is stated for
non-zero tile dimensions, where the four conditions are defined; a zero tile
dimension makes the code raise instead (see C5). -/
theorem claim_C3_valid_input_iff (W H tw th : Int) (L : List Int)
    (htw : tw ≠ 0) (hth : th ≠ 0) :
    valid_input (W, H) (tw, th) L = .ok true ↔
      (Int.fmod W tw = 0 ∧ Int.fmod H th = 0 ∧
        (L.length : Int) = Int.fdiv H th * Int.fdiv W tw ∧
        L.Perm ((List.range L.length).map (fun n : Nat => (n : Int)))) :=
  valid_input_characterization W H tw th L htw hth

/-- Witness for C3 at image 4x4, tile 2x2, ordering `[0, 2, 1, 3]`. -/
theorem claim_C3_witness :
    valid_input (4, 4) (2, 2) [0, 2, 1, 3] = .ok true ↔
      (Int.fmod 4 2 = 0 ∧ Int.fmod 4 2 = 0 ∧
        ((4 : Nat) : Int) = Int.fdiv 4 2 * Int.fdiv 4 2 ∧
        List.Perm [0, 2, 1, 3]
          ((List.range 4).map (fun n : Nat => (n : Int)))) :=
  claim_C3_valid_input_iff 4 4 2 2 [0, 2, 1, 3] (by decide) (by decide)

/-- C5: the claim states that a degenerate tile size (width or height zero)
makes the validator return false rather than fault.  The code instead
computes `tile_cols = image_width // 0` before any check and so raises
`ZeroDivisionError` — embedded here as the `zeroDivisionError` value — and
`rearrange_tiles` propagates that fault instead of the clean `ValueError`. -/
theorem claim_C5_zero_tile_size_crashes :
    valid_input (4, 4) (0, 2) [0, 1, 2, 3] = .error .zeroDivisionError ∧
    rearrange_tiles testImg (0, 2) [0, 1, 2, 3] =
      .error .zeroDivisionError := by
  exact ⟨rfl, rfl⟩

/-- C10: `valid_input` imposes no positivity check on the tile dimensions:
with Python's floored division and modulo, the negative tile size `(-2, -2)`
is accepted for a 4x4 image with ordering `[0, 1, 2, 3]`. -/
theorem claim_C10_negative_tile_accepted :
    valid_input (4, 4) (-2, -2) [0, 1, 2, 3] = .ok true ∧
    (-2 : Int) < 0 :=
  ⟨by rfl, by decide⟩

theorem foldl_paste_dims {α : Type} (g : Img → α → Img)
    (hg : ∀ acc a, (g acc a).mode = acc.mode ∧ (g acc a).width = acc.width ∧
      (g acc a).height = acc.height) (l : List α) :
    ∀ init : Img,
      (l.foldl g init).mode = init.mode ∧ (l.foldl g init).width = init.width ∧
        (l.foldl g init).height = init.height := by
  induction l with
  | nil => intro init; exact ⟨rfl, rfl, rfl⟩
  | cons a as ih =>
    intro init
    rw [List.foldl_cons]
    obtain ⟨h1, h2, h3⟩ := ih (g init a)
    obtain ⟨g1, g2, g3⟩ := hg init a
    exact ⟨h1.trans g1, h2.trans g2, h3.trans g3⟩

theorem nested_fold_dims (f : Nat → Nat → Img → Img)
    (hf : ∀ i j acc, (f i j acc).mode = acc.mode ∧
      (f i j acc).width = acc.width ∧ (f i j acc).height = acc.height)
    (R C : Nat) (init : Img) :
    (((List.range R).foldl (fun acc i =>
        (List.range C).foldl (fun acc2 j => f i j acc2) acc) init).mode
          = init.mode) ∧
    (((List.range R).foldl (fun acc i =>
        (List.range C).foldl (fun acc2 j => f i j acc2) acc) init).width
          = init.width) ∧
    (((List.range R).foldl (fun acc i =>
        (List.range C).foldl (fun acc2 j => f i j acc2) acc) init).height
          = init.height) :=
  foldl_paste_dims
    (fun acc i => (List.range C).foldl (fun acc2 j => f i j acc2) acc)
    (fun acc a => foldl_paste_dims (fun acc2 j => f a j acc2)
      (fun acc2 b => hf a b acc2) (List.range C) acc)
    (List.range R) init

/-- C9: every successful run of `rearrange_tiles` returns a destination
buffer allocated with exactly the source's width, height and color mode;
the mode is preserved unchanged from source to saved destination. -/
theorem claim_C9_frame (image : Img) (ts : Int × Int) (ord : List Int)
    (out : Img) (h : rearrange_tiles image ts ord = .ok out) :
    out.mode = image.mode ∧ out.width = image.width ∧
      out.height = image.height := by
  by_cases h2 : ts.2 = 0
  · simp [rearrange_tiles, h2] at h
  by_cases h1 : ts.1 = 0
  · simp [rearrange_tiles, h2, h1] at h
  simp only [rearrange_tiles, if_neg h2, if_neg h1] at h
  rcases hv : valid_input ((image.width : Int), (image.height : Int)) ts ord
    with e | b
  · rw [hv] at h; cases h
  · rcases b with _ | _
    · rw [hv] at h; cases h
    · rw [hv] at h
      rw [Except.ok.injEq] at h
      subst h
      exact nested_fold_dims
        (fun i j acc2 => acc2.paste _ (ts.1 * (j : Int), ts.2 * (i : Int)))
        (fun i j acc => ⟨rfl, rfl, rfl⟩) _ _
        (Img.new image.mode (image.width, image.height))

/-- Witness for C9: the concrete rearrangement of the 4x4 test image keeps
its size and mode. -/
theorem claim_C9_witness :
    ∃ out, rearrange_tiles testImg (2, 2) [1, 0, 3, 2] = .ok out ∧
      out.mode = testImg.mode ∧ out.width = testImg.width ∧
        out.height = testImg.height := by
  have hok : (rearrange_tiles testImg (2, 2) [1, 0, 3, 2]).isOk = true := by rfl
  rcases hre : rearrange_tiles testImg (2, 2) [1, 0, 3, 2] with e | out
  · rw [hre] at hok; exact Bool.noConfusion hok
  · exact ⟨out, rfl, claim_C9_frame testImg (2, 2) [1, 0, 3, 2] out hre⟩

/-- C1: whenever validation fails (returns false), `rearrange_tiles` raises
the `ValueError` carrying exactly the fixed message, and no destination
image is produced (the run ends in `Except.error`); whenever validation
succeeds, no such error is raised and a destination image is produced. -/
theorem claim_C1_validation (image : Img) (ts : Int × Int) (ord : List Int) :
    (valid_input ((image.width : Int), (image.height : Int)) ts ord =
        .ok false →
      rearrange_tiles image ts ord = .error (.valueError invalidMsg)) ∧
    (valid_input ((image.width : Int), (image.height : Int)) ts ord =
        .ok true →
      ∃ out, rearrange_tiles image ts ord = .ok out) := by
  constructor
  · intro h
    have h2 : ts.2 ≠ 0 := by intro h0; simp [valid_input, h0] at h
    have h1 : ts.1 ≠ 0 := by intro h0; simp [valid_input, h0] at h
    simp only [rearrange_tiles, if_neg h2, if_neg h1, h]
  · intro h
    have h2 : ts.2 ≠ 0 := by intro h0; simp [valid_input, h0] at h
    have h1 : ts.1 ≠ 0 := by intro h0; simp [valid_input, h0] at h
    simp only [rearrange_tiles, if_neg h2, if_neg h1, h]
    exact ⟨_, rfl⟩

/-- Witness for C1: an ordering of the wrong length is rejected with the
`ValueError`, and the valid identity rearrangement succeeds. -/
theorem claim_C1_witness :
    (rearrange_tiles testImg (3, 3) [] = .error (.valueError invalidMsg)) ∧
    (∃ out, rearrange_tiles testImg (2, 2) [0, 1, 2, 3] = .ok out) :=
  ⟨(claim_C1_validation testImg (3, 3) []).1 (by rfl),
    (claim_C1_validation testImg (2, 2) [0, 1, 2, 3]).2 (by rfl)⟩

theorem pixAt_eq_pix (img : Img) {c r : Nat} (hc : c < img.width)
    (hr : r < img.height) : pixAt img c r = img.pix c r := by
  have hcond : 0 ≤ (c : Int) ∧ 0 ≤ (r : Int) ∧
      (c : Int) < (img.width : Int) ∧ (r : Int) < (img.height : Int) :=
    ⟨by omega, by omega, by omega, by omega⟩
  rw [pixAt, if_pos hcond]
  rfl

theorem get_tile_width (image : Img) (tw th : Nat) (i j : Int) :
    (get_tile image ((tw : Int), (th : Int)) i j).width = tw := by
  show ((tw : Int) * i + (tw : Int) - (tw : Int) * i).toNat = tw
  omega

theorem get_tile_height (image : Img) (tw th : Nat) (i j : Int) :
    (get_tile image ((tw : Int), (th : Int)) i j).height = th := by
  show ((th : Int) * j + (th : Int) - (th : Int) * j).toNat = th
  omega

theorem get_tile_pix (image : Img) (tw th : Nat) (i j : Int) (a b : Nat) :
    (get_tile image ((tw : Int), (th : Int)) i j).pix a b
      = pixAt image ((tw : Int) * i + (a : Int)) ((th : Int) * j + (b : Int)) :=
  rfl

theorem pixAt_get_tile (image : Img) (tw th : Nat) (i j : Int) (a b : Nat)
    (ha : a < tw) (hb : b < th) :
    pixAt (get_tile image ((tw : Int), (th : Int)) i j) a b
      = pixAt image ((tw : Int) * i + (a : Int)) ((th : Int) * j + (b : Int)) := by
  have h1 := get_tile_width image tw th i j
  have h2 := get_tile_height image tw th i j
  have hcond : 0 ≤ (a : Int) ∧ 0 ≤ (b : Int) ∧
      (a : Int) < ((get_tile image ((tw : Int), (th : Int)) i j).width : Int) ∧
      (b : Int) < ((get_tile image ((tw : Int), (th : Int)) i j).height : Int) := by
    rw [h1, h2]
    exact ⟨by omega, by omega, by omega, by omega⟩
  rw [pixAt, if_pos hcond]
  exact get_tile_pix image tw th i j a b

/-- C8: the tile extractor returns exactly the rectangular sub-region with
left edge `tw * i`, top edge `th * j`, right edge `tw * (i + 1)` and bottom
edge `th * (j + 1)` (half-open), as an independent copy: its size is
`(tw, th)` and its pixel `(a, b)` is the source pixel `(tw*i+a, th*j+b)`.
The in-bounds hypotheses express the caller contract stated in the spec. -/
theorem claim_C8_get_tile (image : Img) (tw th i j : Nat)
    (hx : tw * (i + 1) ≤ image.width) (hy : th * (j + 1) ≤ image.height) :
    (get_tile image ((tw : Int), (th : Int)) (i : Int) (j : Int)).width = tw ∧
    (get_tile image ((tw : Int), (th : Int)) (i : Int) (j : Int)).height = th ∧
    ∀ a b, a < tw → b < th →
      getPix (get_tile image ((tw : Int), (th : Int)) (i : Int) (j : Int)) a b
        = getPix image (tw * i + a) (th * j + b) := by
  refine ⟨get_tile_width image tw th i j, get_tile_height image tw th i j,
    fun a b ha hb => ?_⟩
  rw [getPix, pixAt_get_tile image tw th i j a b ha hb, getPix]
  congr 1 <;> push_cast <;> ring

/-- Witness for C8: the tile at column 1, row 0 of the 4x4 test image. -/
theorem claim_C8_witness :
    (2 : Nat) * (1 + 1) ≤ testImg.width ∧
    ((get_tile testImg ((2 : Int), (2 : Int)) 1 0).width = 2 ∧
      (get_tile testImg ((2 : Int), (2 : Int)) 1 0).height = 2 ∧
      ∀ a b, a < 2 → b < 2 →
        getPix (get_tile testImg ((2 : Int), (2 : Int)) 1 0) a b
          = getPix testImg (2 * 1 + a) (2 * 0 + b)) :=
  ⟨by decide, claim_C8_get_tile testImg 2 2 1 0 (by decide) (by decide)⟩

/-- A paste record: a tile together with the top-left corner it is pasted
at. -/
def PasteRec : Type := Img × Int × Int

/-- The condition under which a paste record writes the pixel `(c, r)`. -/
def covers (t : PasteRec) (c r : Nat) : Prop :=
  t.2.1 ≤ (c : Int) ∧ (c : Int) < t.2.1 + t.1.width ∧
    t.2.2 ≤ (r : Int) ∧ (r : Int) < t.2.2 + t.1.height

instance (t : PasteRec) (c r : Nat) : Decidable (covers t c r) :=
  inferInstanceAs (Decidable (_ ∧ _ ∧ _ ∧ _))

/-- Sequential pasting of a list of paste records into a buffer. -/
def pasteAll (l : List PasteRec) (img : Img) : Img :=
  l.foldl (fun acc t => acc.paste t.1 (t.2.1, t.2.2)) img

theorem pasteAll_cons (t : PasteRec) (l : List PasteRec) (img : Img) :
    pasteAll (t :: l) img = pasteAll l (img.paste t.1 (t.2.1, t.2.2)) := rfl

theorem pasteAll_append (l1 l2 : List PasteRec) (img : Img) :
    pasteAll (l1 ++ l2) img = pasteAll l2 (pasteAll l1 img) := by
  rw [pasteAll, List.foldl_append]; rfl

theorem pasteAll_dims (l : List PasteRec) (img : Img) :
    (pasteAll l img).mode = img.mode ∧ (pasteAll l img).width = img.width ∧
      (pasteAll l img).height = img.height :=
  foldl_paste_dims (fun (acc : Img) (t : PasteRec) => acc.paste t.1 (t.2.1, t.2.2))
    (fun acc a => ⟨rfl, rfl, rfl⟩) l img

theorem paste_pix (img : Img) (t : PasteRec) (c r : Nat) :
    (img.paste t.1 (t.2.1, t.2.2)).pix c r =
      if covers t c r then
        pixAt t.1 ((c : Int) - t.2.1) ((r : Int) - t.2.2)
      else img.pix c r := rfl

theorem pasteAll_pix_not_covered (l : List PasteRec) (c r : Nat) :
    ∀ img : Img, (∀ t ∈ l, ¬ covers t c r) →
      (pasteAll l img).pix c r = img.pix c r := by
  induction l with
  | nil => intro img h; rfl
  | cons t ts ih =>
    intro img h
    rw [pasteAll_cons, ih _ (fun u hu => h u (List.mem_cons_of_mem t hu)),
      paste_pix, if_neg (h t (List.mem_cons_self t ts))]

theorem pasteAll_pix_covered_last (l1 l2 : List PasteRec) (t : PasteRec)
    (img : Img) (c r : Nat) (hcov : covers t c r)
    (hnone : ∀ u ∈ l2, ¬ covers u c r) :
    (pasteAll (l1 ++ t :: l2) img).pix c r
      = pixAt t.1 ((c : Int) - t.2.1) ((r : Int) - t.2.2) := by
  rw [pasteAll_append, pasteAll_cons, pasteAll_pix_not_covered l2 c r _ hnone,
    paste_pix, if_pos hcov]

theorem nested_foldl_eq_pasteAll (tile : Nat → Nat → Img)
    (px py : Nat → Nat → Int) (C : Nat) (R : Nat) :
    ∀ init : Img,
      (List.range R).foldl (fun acc i => (List.range C).foldl (fun acc2 j =>
          acc2.paste (tile i j) (px i j, py i j)) acc) init
        = pasteAll ((List.range R).flatMap (fun i =>
            (List.range C).map (fun j =>
              ((tile i j, px i j, py i j) : PasteRec)))) init := by
  induction R with
  | zero => intro init; rfl
  | succ n ih =>
    intro init
    rw [List.range_succ, List.foldl_append, List.flatMap_append,
      pasteAll_append, ← ih init]
    show (List.range C).foldl _ _ = pasteAll (List.flatMap [n] _) _
    rw [List.flatMap_cons, List.flatMap_nil, List.append_nil, pasteAll,
      List.foldl_map]

theorem grid_length {α : Type} (R C : Nat) (g : Nat → List α)
    (hg : ∀ i, (g i).length = C) :
    ((List.range R).flatMap g).length = R * C := by
  induction R with
  | zero => simp
  | succ n ih =>
    rw [List.range_succ, List.flatMap_append, List.length_append, ih,
      List.flatMap_cons, List.flatMap_nil, List.append_nil, hg, Nat.succ_mul]

theorem grid_getD {α : Type} (C : Nat) (g : Nat → Nat → α) (d : α)
    (j : Nat) (hj : j < C) :
    ∀ R i, i < R →
      ((List.range R).flatMap (fun i => (List.range C).map (g i))).getD
          (i * C + j) d = g i j := by
  intro R
  induction R with
  | zero => intro i hi; omega
  | succ n ih =>
    intro i hi
    have hlen : ((List.range n).flatMap (fun i =>
        (List.range C).map (g i))).length = n * C :=
      grid_length n C _ (fun i => by simp)
    rw [List.range_succ, List.flatMap_append, List.flatMap_cons,
      List.flatMap_nil, List.append_nil]
    by_cases hin : i < n
    · rw [List.getD_append]
      · exact ih i hin
      · rw [hlen]
        have h1 : i * C + j < (i + 1) * C := by rw [Nat.succ_mul]; omega
        have h2 : (i + 1) * C ≤ n * C := Nat.mul_le_mul_right C hin
        omega
    · have hieq : i = n := by omega
      subst hieq
      rw [List.getD_append_right]
      · rw [hlen, Nat.add_sub_cancel_left]
        rw [List.getD_eq_getElem _ _ (by simpa using hj), List.getElem_map,
          List.getElem_range]
      · rw [hlen]; omega

theorem map_range_getD {α : Type} (n : Nat) (f : Nat → α) (k : Nat) (d : α)
    (hk : k < n) : ((List.range n).map f).getD k d = f k := by
  rw [List.getD_eq_getElem _ _ (by simpa using hk), List.getElem_map,
    List.getElem_range]

instance : Inhabited PasteRec := ⟨((default : Img), 0, 0)⟩

/-- The flat row-major list of source tiles built by the first loop of
`rearrange_tiles` (for a tile size that divides the image evenly). -/
def srcTiles (image : Img) (tw th : Nat) : List Img :=
  (List.range (image.height / th)).flatMap (fun i : Nat =>
    (List.range (image.width / tw)).map (fun j : Nat =>
      get_tile image ((tw : Int), (th : Int)) (j : Int) (i : Int)))

/-- The permuted tile list built by the second loop of `rearrange_tiles`:
output slot `i` holds source tile `ordering[i]`. -/
def outTiles (image : Img) (tw th : Nat) (ordering : List Int) : List Img :=
  (List.range (srcTiles image tw th).length).map (fun i =>
    (srcTiles image tw th).getD (ordering.getD i 0).toNat default)

/-- The paste operations performed by the third loop of `rearrange_tiles`,
in execution order. -/
def pasteGrid (image : Img) (tw th : Nat) (ordering : List Int) :
    List PasteRec :=
  (List.range (image.height / th)).flatMap (fun i =>
    (List.range (image.width / tw)).map (fun j =>
      ((outTiles image tw th ordering).getD
          (i * (image.width / tw) + j) default,
        (tw : Int) * (j : Int), (th : Int) * (i : Int))))

theorem srcTiles_length (image : Img) (tw th : Nat) :
    (srcTiles image tw th).length
      = (image.height / th) * (image.width / tw) := by
  simp only [srcTiles]
  exact grid_length _ _ _ (fun i => by simp)

theorem srcTiles_getD (image : Img) (tw th : Nat) (ic jc : Nat)
    (hic : ic < image.height / th) (hjc : jc < image.width / tw) :
    (srcTiles image tw th).getD (ic * (image.width / tw) + jc) default
      = get_tile image ((tw : Int), (th : Int)) (jc : Int) (ic : Int) := by
  simp only [srcTiles]
  exact grid_getD (image.width / tw)
    (fun i j => get_tile image ((tw : Int), (th : Int)) (j : Int) (i : Int))
    default jc hjc (image.height / th) ic hic

theorem outTiles_getD (image : Img) (tw th : Nat) (ordering : List Int)
    (m : Nat) (hm : m < (image.height / th) * (image.width / tw)) :
    (outTiles image tw th ordering).getD m default
      = (srcTiles image tw th).getD (ordering.getD m 0).toNat default := by
  simp only [outTiles]
  exact map_range_getD _ _ m default (by rw [srcTiles_length]; exact hm)

theorem pasteGrid_length (image : Img) (tw th : Nat) (ordering : List Int) :
    (pasteGrid image tw th ordering).length
      = (image.height / th) * (image.width / tw) := by
  simp only [pasteGrid]
  exact grid_length _ _ _ (fun i => by simp)

theorem pasteGrid_getD (image : Img) (tw th : Nat) (ordering : List Int)
    (i0 j0 : Nat) (hi0 : i0 < image.height / th)
    (hj0 : j0 < image.width / tw) :
    (pasteGrid image tw th ordering).getD (i0 * (image.width / tw) + j0)
        default
      = ((outTiles image tw th ordering).getD
          (i0 * (image.width / tw) + j0) default,
        (tw : Int) * (j0 : Int), (th : Int) * (i0 : Int)) := by
  simp only [pasteGrid]
  exact grid_getD (image.width / tw)
    (fun i j => (((outTiles image tw th ordering).getD
        (i * (image.width / tw) + j) default,
      (tw : Int) * (j : Int), (th : Int) * (i : Int)) : PasteRec))
    default j0 hj0 (image.height / th) i0 hi0

theorem tile_index_eq {tw j j0 a : Nat} (ha : a < tw)
    (h1 : tw * j ≤ tw * j0 + a) (h2 : tw * j0 + a < tw * j + tw) : j = j0 := by
  rcases Nat.lt_trichotomy j j0 with h | h | h
  · have hle : tw * (j + 1) ≤ tw * j0 := Nat.mul_le_mul_left tw h
    rw [Nat.mul_succ] at hle
    omega
  · exact h
  · have hle : tw * (j0 + 1) ≤ tw * j := Nat.mul_le_mul_left tw h
    rw [Nat.mul_succ] at hle
    omega

theorem rearrange_tiles_valid_eq (image : Img) (tw th : Nat)
    (ordering : List Int) (htw0 : (tw : Int) ≠ 0) (hth0 : (th : Int) ≠ 0)
    (hv : valid_input ((image.width : Int), (image.height : Int))
      ((tw : Int), (th : Int)) ordering = .ok true) :
    rearrange_tiles image ((tw : Int), (th : Int)) ordering
      = .ok (pasteAll (pasteGrid image tw th ordering)
          (Img.new image.mode (image.width, image.height))) := by
  have hRI : (Int.fdiv (image.height : Int) (th : Int)).toNat
      = image.height / th := by
    rw [Int.fdiv_eq_ediv _ (by omega), ← Int.natCast_div, Int.toNat_ofNat]
  have hCI : (Int.fdiv (image.width : Int) (tw : Int)).toNat
      = image.width / tw := by
    rw [Int.fdiv_eq_ediv _ (by omega), ← Int.natCast_div, Int.toNat_ofNat]
  simp only [rearrange_tiles, if_neg hth0, if_neg htw0, hv]
  rw [hRI, hCI]
  exact congrArg Except.ok (nested_foldl_eq_pasteAll
    (fun i j => (outTiles image tw th ordering).getD
      (i * (image.width / tw) + j) default)
    (fun i j => (tw : Int) * (j : Int))
    (fun i j => (th : Int) * (i : Int))
    (image.width / tw) (image.height / th)
    (Img.new image.mode (image.width, image.height)))

theorem rearrange_ok_spec (image : Img) (tw th : Nat) (ordering : List Int)
    (htw : 0 < tw) (hth : 0 < th)
    (hvalid : valid_input ((image.width : Int), (image.height : Int))
      ((tw : Int), (th : Int)) ordering = .ok true) :
    ∃ out, rearrange_tiles image ((tw : Int), (th : Int)) ordering
        = .ok out ∧
      out.mode = image.mode ∧ out.width = image.width ∧
      out.height = image.height ∧
      ∀ k a b, k < ordering.length → a < tw → b < th →
        getPix out (tw * (k % (image.width / tw)) + a)
            (th * (k / (image.width / tw)) + b)
          = getPix image
              (tw * ((ordering.getD k 0).toNat % (image.width / tw)) + a)
              (th * ((ordering.getD k 0).toNat / (image.width / tw)) + b) := by
  have htw0 : (tw : Int) ≠ 0 := by omega
  have hth0 : (th : Int) ≠ 0 := by omega
  obtain ⟨hm1, hm2, hlenI, hperm⟩ :=
    (valid_input_characterization _ _ _ _ ordering htw0 hth0).mp hvalid
  have hdW : tw ∣ image.width := by
    rw [Int.fmod_eq_emod _ (by omega), ← Int.natCast_mod] at hm1
    exact Nat.dvd_of_mod_eq_zero (by exact_mod_cast hm1)
  have hdH : th ∣ image.height := by
    rw [Int.fmod_eq_emod _ (by omega), ← Int.natCast_mod] at hm2
    exact Nat.dvd_of_mod_eq_zero (by exact_mod_cast hm2)
  have hlen : ordering.length
      = (image.height / th) * (image.width / tw) := by
    rw [Int.fdiv_eq_ediv _ (by omega : (0 : Int) ≤ (th : Int)),
      Int.fdiv_eq_ediv _ (by omega : (0 : Int) ≤ (tw : Int)),
      ← Int.natCast_div, ← Int.natCast_div, ← Int.natCast_mul] at hlenI
    exact_mod_cast hlenI
  have hbnd : ∀ m, m < ordering.length →
      0 ≤ ordering.getD m 0 ∧
        (ordering.getD m 0).toNat < ordering.length := by
    intro m hm
    have hmem : ordering.getD m 0 ∈ ordering := by
      rw [List.getD_eq_getElem _ _ hm]
      exact List.getElem_mem _
    have h2 := hperm.mem_iff.mp hmem
    simp only [List.mem_map, List.mem_range] at h2
    obtain ⟨q, hq, hqeq⟩ := h2
    omega
  refine ⟨pasteAll (pasteGrid image tw th ordering)
      (Img.new image.mode (image.width, image.height)),
    rearrange_tiles_valid_eq image tw th ordering htw0 hth0 hvalid,
    (pasteAll_dims _ _).1, (pasteAll_dims _ _).2.1,
    (pasteAll_dims _ _).2.2, ?_⟩
  intro k a b hk ha hb
  have hC : 0 < image.width / tw := by
    rcases Nat.eq_zero_or_pos (image.width / tw) with h0 | h0
    · rw [h0, Nat.mul_zero] at hlen; omega
    · exact h0
  have hR : 0 < image.height / th := by
    rcases Nat.eq_zero_or_pos (image.height / th) with h0 | h0
    · rw [h0, Nat.zero_mul] at hlen; omega
    · exact h0
  have hj0 : k % (image.width / tw) < image.width / tw := Nat.mod_lt _ hC
  have hi0 : k / (image.width / tw) < image.height / th := by
    rw [Nat.div_lt_iff_lt_mul hC]; omega
  obtain ⟨honn, holt⟩ := hbnd k hk
  have hjc : (ordering.getD k 0).toNat % (image.width / tw)
      < image.width / tw := Nat.mod_lt _ hC
  have hic : (ordering.getD k 0).toNat / (image.width / tw)
      < image.height / th := by
    rw [Nat.div_lt_iff_lt_mul hC]; omega
  have hWW : tw * (image.width / tw) = image.width :=
    Nat.mul_div_cancel' hdW
  have hHH : th * (image.height / th) = image.height :=
    Nat.mul_div_cancel' hdH
  have hcW : tw * (k % (image.width / tw)) + a < image.width := by
    have h1 : tw * (k % (image.width / tw)) + a
        < tw * (k % (image.width / tw) + 1) := by rw [Nat.mul_succ]; omega
    have h2 : tw * (k % (image.width / tw) + 1) ≤ tw * (image.width / tw) :=
      Nat.mul_le_mul_left tw hj0
    omega
  have hrH : th * (k / (image.width / tw)) + b < image.height := by
    have h1 : th * (k / (image.width / tw)) + b
        < th * (k / (image.width / tw) + 1) := by rw [Nat.mul_succ]; omega
    have h2 : th * (k / (image.width / tw) + 1)
        ≤ th * (image.height / th) := Nat.mul_le_mul_left th hi0
    omega
  have hGlen : (pasteGrid image tw th ordering).length
      = (image.height / th) * (image.width / tw) :=
    pasteGrid_length image tw th ordering
  have hkG : k < (pasteGrid image tw th ordering).length := by
    rw [hGlen]; omega
  have hkeq : (k / (image.width / tw)) * (image.width / tw)
      + k % (image.width / tw) = k := by
    rw [Nat.mul_comm]; exact Nat.div_add_mod k (image.width / tw)
  have ht0 := pasteGrid_getD image tw th ordering (k / (image.width / tw))
    (k % (image.width / tw)) hi0 hj0
  rw [hkeq] at ht0
  have hoeq : ((ordering.getD k 0).toNat / (image.width / tw))
        * (image.width / tw)
      + (ordering.getD k 0).toNat % (image.width / tw)
      = (ordering.getD k 0).toNat := by
    rw [Nat.mul_comm]; exact Nat.div_add_mod _ (image.width / tw)
  have hslot : (outTiles image tw th ordering).getD k default
      = get_tile image ((tw : Int), (th : Int))
          (((ordering.getD k 0).toNat % (image.width / tw) : Nat) : Int)
          (((ordering.getD k 0).toNat / (image.width / tw) : Nat) : Int) := by
    rw [outTiles_getD image tw th ordering k (by omega)]
    have hsrc := srcTiles_getD image tw th
      ((ordering.getD k 0).toNat / (image.width / tw))
      ((ordering.getD k 0).toNat % (image.width / tw)) hic hjc
    rw [hoeq] at hsrc
    exact hsrc
  have hslotw : ∀ m, m < ordering.length →
      ((outTiles image tw th ordering).getD m default).width = tw ∧
      ((outTiles image tw th ordering).getD m default).height = th := by
    intro m hm
    obtain ⟨hon, holtm⟩ := hbnd m hm
    have hjcm : (ordering.getD m 0).toNat % (image.width / tw)
        < image.width / tw := Nat.mod_lt _ hC
    have hicm : (ordering.getD m 0).toNat / (image.width / tw)
        < image.height / th := by
      rw [Nat.div_lt_iff_lt_mul hC]; omega
    have hoeqm : ((ordering.getD m 0).toNat / (image.width / tw))
          * (image.width / tw)
        + (ordering.getD m 0).toNat % (image.width / tw)
        = (ordering.getD m 0).toNat := by
      rw [Nat.mul_comm]; exact Nat.div_add_mod _ (image.width / tw)
    have hsrc := srcTiles_getD image tw th
      ((ordering.getD m 0).toNat / (image.width / tw))
      ((ordering.getD m 0).toNat % (image.width / tw)) hicm hjcm
    rw [hoeqm] at hsrc
    rw [outTiles_getD image tw th ordering m (by omega), hsrc]
    exact ⟨get_tile_width _ _ _ _ _, get_tile_height _ _ _ _ _⟩
  have hsplit : pasteGrid image tw th ordering
      = (pasteGrid image tw th ordering).take k
        ++ (pasteGrid image tw th ordering).getD k default
          :: (pasteGrid image tw th ordering).drop (k + 1) := by
    conv_lhs => rw [← List.take_append_drop k (pasteGrid image tw th ordering)]
    rw [List.drop_eq_getElem_cons hkG, List.getD_eq_getElem _ _ hkG]
  have hnone : ∀ u ∈ (pasteGrid image tw th ordering).drop (k + 1),
      ¬ covers u (tw * (k % (image.width / tw)) + a)
        (th * (k / (image.width / tw)) + b) := by
    intro u hu hcov
    rw [List.mem_iff_getElem] at hu
    obtain ⟨m, hmlt, hmu⟩ := hu
    rw [List.getElem_drop] at hmu
    have hmlt2 : k + 1 + m < (pasteGrid image tw th ordering).length := by
      rw [List.length_drop] at hmlt; omega
    have hmlen : k + 1 + m < ordering.length := by rw [hGlen] at hmlt2; omega
    have hj' : (k + 1 + m) % (image.width / tw) < image.width / tw :=
      Nat.mod_lt _ hC
    have hi' : (k + 1 + m) / (image.width / tw) < image.height / th := by
      rw [Nat.div_lt_iff_lt_mul hC]; omega
    have hgeq := pasteGrid_getD image tw th ordering
      ((k + 1 + m) / (image.width / tw)) ((k + 1 + m) % (image.width / tw))
      hi' hj'
    have hkeq2 : ((k + 1 + m) / (image.width / tw)) * (image.width / tw)
        + (k + 1 + m) % (image.width / tw) = k + 1 + m := by
      rw [Nat.mul_comm]; exact Nat.div_add_mod _ (image.width / tw)
    rw [hkeq2, List.getD_eq_getElem _ _ hmlt2, hmu] at hgeq
    rw [hgeq] at hcov
    simp only [covers] at hcov
    obtain ⟨humw, humh⟩ := hslotw (k + 1 + m) hmlen
    rw [humw, humh] at hcov
    have hcol : (k + 1 + m) % (image.width / tw) = k % (image.width / tw) := by
      refine tile_index_eq ha ?_ ?_
      · exact_mod_cast hcov.1
      · exact_mod_cast hcov.2.1
    have hrow : (k + 1 + m) / (image.width / tw) = k / (image.width / tw) := by
      refine tile_index_eq hb ?_ ?_
      · exact_mod_cast hcov.2.2.1
      · exact_mod_cast hcov.2.2.2
    have : k + 1 + m = k := by
      calc k + 1 + m
          = ((k + 1 + m) / (image.width / tw)) * (image.width / tw)
            + (k + 1 + m) % (image.width / tw) := hkeq2.symm
        _ = (k / (image.width / tw)) * (image.width / tw)
            + k % (image.width / tw) := by rw [hcol, hrow]
        _ = k := hkeq
    omega
  have hcovt : covers ((pasteGrid image tw th ordering).getD k default)
      (tw * (k % (image.width / tw)) + a)
      (th * (k / (image.width / tw)) + b) := by
    rw [ht0]
    obtain ⟨hw', hh'⟩ := hslotw k hk
    simp only [covers]
    rw [hw', hh']
    refine ⟨?_, ?_, ?_, ?_⟩ <;> push_cast <;> omega
  have hcb : tw * (k % (image.width / tw)) + a
      < (pasteAll (pasteGrid image tw th ordering)
          (Img.new image.mode (image.width, image.height))).width := by
    rw [(pasteAll_dims _ _).2.1]; exact hcW
  have hrb : th * (k / (image.width / tw)) + b
      < (pasteAll (pasteGrid image tw th ordering)
          (Img.new image.mode (image.width, image.height))).height := by
    rw [(pasteAll_dims _ _).2.2]; exact hrH
  rw [getPix, pixAt_eq_pix _ hcb hrb]
  conv_lhs => rw [hsplit]
  rw [pasteAll_pix_covered_last _ _ _ _ _ _ hcovt hnone]
  rw [ht0]
  dsimp only
  rw [hslot]
  have harg1 : ((tw * (k % (image.width / tw)) + a : Nat) : Int)
      - (tw : Int) * ((k % (image.width / tw) : Nat) : Int)
      = ((a : Nat) : Int) := by push_cast; ring
  have harg2 : ((th * (k / (image.width / tw)) + b : Nat) : Int)
      - (th : Int) * ((k / (image.width / tw) : Nat) : Int)
      = ((b : Nat) : Int) := by push_cast; ring
  rw [harg1, harg2]
  rw [pixAt_get_tile image tw th _ _ a b ha hb]
  rw [getPix]
  congr 1 <;> push_cast <;> ring

theorem valid_of_spec (W H tw th : Nat) (L : List Int)
    (htw : 0 < tw) (hth : 0 < th) (hdW : tw ∣ W) (hdH : th ∣ H)
    (hlen : L.length = (H / th) * (W / tw))
    (hperm : L.Perm ((List.range L.length).map (fun n : Nat => (n : Int)))) :
    valid_input ((W : Int), (H : Int)) ((tw : Int), (th : Int)) L
      = .ok true := by
  rw [valid_input_characterization _ _ _ _ L (by omega) (by omega)]
  refine ⟨?_, ?_, ?_, hperm⟩
  · rw [Int.fmod_eq_emod _ (by omega), ← Int.natCast_mod]
    have h0 : W % tw = 0 := Nat.mod_eq_zero_of_dvd hdW
    exact_mod_cast h0
  · rw [Int.fmod_eq_emod _ (by omega), ← Int.natCast_mod]
    have h0 : H % th = 0 := Nat.mod_eq_zero_of_dvd hdH
    exact_mod_cast h0
  · rw [Int.fdiv_eq_ediv _ (by omega), Int.fdiv_eq_ediv _ (by omega),
      ← Int.natCast_div, ← Int.natCast_div, ← Int.natCast_mul]
    exact_mod_cast hlen

theorem perm_getD_bound {L : List Int}
    (hperm : L.Perm ((List.range L.length).map (fun n : Nat => (n : Int))))
    {m : Nat} (hm : m < L.length) :
    0 ≤ L.getD m 0 ∧ (L.getD m 0).toNat < L.length := by
  have hmem : L.getD m 0 ∈ L := by
    rw [List.getD_eq_getElem _ _ hm]
    exact List.getElem_mem _
  have h2 := hperm.mem_iff.mp hmem
  simp only [List.mem_map, List.mem_range] at h2
  obtain ⟨q, hq, hqeq⟩ := h2
  omega

theorem coord_decomp (W H tw th : Nat) (htw : 0 < tw) (hth : 0 < th)
    (hdW : tw ∣ W) (hdH : th ∣ H) (x y : Nat) (hx : x < W) (hy : y < H) :
    x / tw < W / tw ∧ y / th < H / th ∧
    (y / th) * (W / tw) + x / tw < (H / th) * (W / tw) ∧
    ((y / th) * (W / tw) + x / tw) % (W / tw) = x / tw ∧
    ((y / th) * (W / tw) + x / tw) / (W / tw) = y / th := by
  have hC : 0 < W / tw := by
    rcases Nat.eq_zero_or_pos (W / tw) with h0 | h0
    · exfalso
      have h2 := Nat.mul_div_cancel' hdW
      rw [h0, Nat.mul_zero] at h2
      omega
    · exact h0
  have hj : x / tw < W / tw := by
    rw [Nat.div_lt_iff_lt_mul htw]
    have h2 := Nat.mul_div_cancel' hdW
    rw [Nat.mul_comm] at h2
    omega
  have hi : y / th < H / th := by
    rw [Nat.div_lt_iff_lt_mul hth]
    have h2 := Nat.mul_div_cancel' hdH
    rw [Nat.mul_comm] at h2
    omega
  refine ⟨hj, hi, ?_, ?_, ?_⟩
  · have h3 : (y / th) * (W / tw) + x / tw < (y / th + 1) * (W / tw) := by
      rw [Nat.succ_mul]; omega
    have h4 : (y / th + 1) * (W / tw) ≤ (H / th) * (W / tw) :=
      Nat.mul_le_mul_right _ hi
    omega
  · rw [Nat.add_comm, Nat.add_mul_mod_self_right, Nat.mod_eq_of_lt hj]
  · rw [Nat.add_comm, Nat.add_mul_div_right _ _ hC, Nat.div_eq_of_lt hj,
      Nat.zero_add]

/-- C2: for every valid input (positive tile dimensions dividing the image
dimensions, ordering a permutation of the tile count) the output of
`rearrange_tiles` realizes the row-major extract / permute / paste pipeline:
for every output slot `k`, the pixels of the destination rectangle at
`(tw * (k mod C), th * (k div C))` (with `C` the number of tile columns)
equal the pixels of the source tile with row-major index `ordering[k]`,
located at `(tw * (ordering[k] mod C), th * (ordering[k] div C))`. -/
theorem claim_C2_rearrange_mapping (image : Img) (tw th : Nat)
    (ordering : List Int) (htw : 0 < tw) (hth : 0 < th)
    (hdW : tw ∣ image.width) (hdH : th ∣ image.height)
    (hlen : ordering.length = (image.height / th) * (image.width / tw))
    (hperm : ordering.Perm
      ((List.range ordering.length).map (fun n : Nat => (n : Int)))) :
    ∃ out, rearrange_tiles image ((tw : Int), (th : Int)) ordering
        = .ok out ∧
      ∀ k a b, k < ordering.length → a < tw → b < th →
        getPix out (tw * (k % (image.width / tw)) + a)
            (th * (k / (image.width / tw)) + b)
          = getPix image
              (tw * ((ordering.getD k 0).toNat % (image.width / tw)) + a)
              (th * ((ordering.getD k 0).toNat / (image.width / tw)) + b) := by
  obtain ⟨out, h1, h2, h3, h4, h5⟩ := rearrange_ok_spec image tw th ordering
    htw hth (valid_of_spec image.width image.height tw th ordering htw hth
      hdW hdH hlen hperm)
  exact ⟨out, h1, h5⟩

/-- Witness for C2: the 4x4 test image with 2x2 tiles and ordering
`[1, 0, 3, 2]` (so output slot 0 holds source tile 1 and output slot 1
holds source tile 0). -/
theorem claim_C2_witness :
    (0 : Nat) < 2 ∧
    (∃ out, rearrange_tiles testImg ((2 : Int), (2 : Int)) [1, 0, 3, 2]
        = .ok out ∧
      ∀ k a b, k < ([1, 0, 3, 2] : List Int).length → a < 2 → b < 2 →
        getPix out (2 * (k % (testImg.width / 2)) + a)
            (2 * (k / (testImg.width / 2)) + b)
          = getPix testImg
              (2 * ((([1, 0, 3, 2] : List Int).getD k 0).toNat
                % (testImg.width / 2)) + a)
              (2 * ((([1, 0, 3, 2] : List Int).getD k 0).toNat
                / (testImg.width / 2)) + b)) :=
  ⟨by decide, claim_C2_rearrange_mapping testImg 2 2 [1, 0, 3, 2]
    (by decide) (by decide) (by decide) (by decide) (by decide) (by decide)⟩

/-- C6: rearranging with the identity ordering `[0, 1, ..., N-1]` (`N` the
tile count) produces an output image pixel-identical to the source. -/
theorem claim_C6_identity (image : Img) (tw th : Nat) (htw : 0 < tw)
    (hth : 0 < th) (hdW : tw ∣ image.width) (hdH : th ∣ image.height) :
    ∃ out, rearrange_tiles image ((tw : Int), (th : Int))
        ((List.range ((image.height / th) * (image.width / tw))).map
          (fun n : Nat => (n : Int))) = .ok out ∧
      ∀ x y, x < image.width → y < image.height →
        getPix out x y = getPix image x y := by
  have hlen : ((List.range ((image.height / th) * (image.width / tw))).map
      (fun n : Nat => (n : Int))).length
      = (image.height / th) * (image.width / tw) := by simp
  have hperm : ((List.range ((image.height / th) * (image.width / tw))).map
        (fun n : Nat => (n : Int))).Perm
      ((List.range ((List.range ((image.height / th)
          * (image.width / tw))).map (fun n : Nat => (n : Int))).length).map
        (fun n : Nat => (n : Int))) := by
    rw [hlen]
  obtain ⟨out, h1, h2, h3, h4, h5⟩ := rearrange_ok_spec image tw th _
    htw hth (valid_of_spec image.width image.height tw th _ htw hth
      hdW hdH hlen hperm)
  refine ⟨out, h1, ?_⟩
  intro x y hx hy
  obtain ⟨hj, hi, hk, hkm, hkd⟩ := coord_decomp image.width image.height
    tw th htw hth hdW hdH x y hx hy
  have ha : x % tw < tw := Nat.mod_lt _ htw
  have hb : y % th < th := Nat.mod_lt _ hth
  have h6 := h5 ((y / th) * (image.width / tw) + x / tw) (x % tw) (y % th)
    (by rw [hlen]; exact hk) ha hb
  have hgetD : ((List.range ((image.height / th) * (image.width / tw))).map
      (fun n : Nat => (n : Int))).getD
        ((y / th) * (image.width / tw) + x / tw) 0
      = (((y / th) * (image.width / tw) + x / tw : Nat) : Int) :=
    map_range_getD _ _ _ _ hk
  rw [hgetD, Int.toNat_ofNat, hkm, hkd, Nat.div_add_mod x tw,
    Nat.div_add_mod y th] at h6
  exact h6

/-- Witness for C6: the identity rearrangement of the 4x4 test image with
2x2 tiles reproduces the image. -/
theorem claim_C6_witness :
    (0 : Nat) < 2 ∧
    (∃ out, rearrange_tiles testImg ((2 : Int), (2 : Int))
        ((List.range ((testImg.height / 2) * (testImg.width / 2))).map
          (fun n : Nat => (n : Int))) = .ok out ∧
      ∀ x y, x < testImg.width → y < testImg.height →
        getPix out x y = getPix testImg x y) :=
  ⟨by decide, claim_C6_identity testImg 2 2 (by decide) (by decide)
    (by decide) (by decide)⟩

/-- C7: for every valid input and permutations `P`, `Q` with
`P[Q[m]] = m` (i.e. `Q` is the inverse permutation of `P`), rearranging
with `P` and then rearranging the result with `Q` (same tile size) yields
an image pixel-identical to the original. -/
theorem claim_C7_inverse (image : Img) (tw th : Nat) (P Q : List Int)
    (htw : 0 < tw) (hth : 0 < th)
    (hdW : tw ∣ image.width) (hdH : th ∣ image.height)
    (hPlen : P.length = (image.height / th) * (image.width / tw))
    (hQlen : Q.length = (image.height / th) * (image.width / tw))
    (hPperm : P.Perm ((List.range P.length).map (fun n : Nat => (n : Int))))
    (hQperm : Q.Perm ((List.range Q.length).map (fun n : Nat => (n : Int))))
    (hinv : ∀ m, m < P.length → P.getD (Q.getD m 0).toNat 0 = (m : Int)) :
    ∃ out1 out2,
      rearrange_tiles image ((tw : Int), (th : Int)) P = .ok out1 ∧
      rearrange_tiles out1 ((tw : Int), (th : Int)) Q = .ok out2 ∧
      ∀ x y, x < image.width → y < image.height →
        getPix out2 x y = getPix image x y := by
  obtain ⟨out1, h1, hm1, hw1, hh1, hpix1⟩ := rearrange_ok_spec image tw th P
    htw hth (valid_of_spec image.width image.height tw th P htw hth
      hdW hdH hPlen hPperm)
  have hdW2 : tw ∣ out1.width := by rw [hw1]; exact hdW
  have hdH2 : th ∣ out1.height := by rw [hh1]; exact hdH
  have hQlen2 : Q.length = (out1.height / th) * (out1.width / tw) := by
    rw [hw1, hh1]; exact hQlen
  obtain ⟨out2, h2, hm2, hw2, hh2, hpix2⟩ := rearrange_ok_spec out1 tw th Q
    htw hth (valid_of_spec out1.width out1.height tw th Q htw hth
      hdW2 hdH2 hQlen2 hQperm)
  refine ⟨out1, out2, h1, h2, ?_⟩
  intro x y hx hy
  obtain ⟨hj, hi, hk, hkm, hkd⟩ := coord_decomp image.width image.height
    tw th htw hth hdW hdH x y hx hy
  have ha : x % tw < tw := Nat.mod_lt _ htw
  have hb : y % th < th := Nat.mod_lt _ hth
  have h6 := hpix2 ((y / th) * (image.width / tw) + x / tw) (x % tw) (y % th)
    (by rw [hQlen]; exact hk) ha hb
  rw [hw1] at h6
  rw [hkm, hkd] at h6
  -- bound on the Q entry
  have hq := perm_getD_bound hQperm
    (show (y / th) * (image.width / tw) + x / tw < Q.length by
      rw [hQlen]; exact hk)
  -- apply the first run at slot Q[k]
  have h7 := hpix1 ((Q.getD ((y / th) * (image.width / tw) + x / tw) 0).toNat)
    (x % tw) (y % th) (by rw [hPlen, ← hQlen]; exact hq.2) ha hb
  -- P[Q[k]] = k
  have h8 := hinv ((y / th) * (image.width / tw) + x / tw)
    (by rw [hPlen]; exact hk)
  rw [h8, Int.toNat_ofNat, hkm, hkd] at h7
  rw [h7] at h6
  rw [Nat.div_add_mod x tw, Nat.div_add_mod y th] at h6
  exact h6

/-- Witness for C7: the self-inverse permutation `[1, 0, 3, 2]` applied
twice to the 4x4 test image restores it. -/
theorem claim_C7_witness :
    (0 : Nat) < 2 ∧
    (∃ out1 out2,
      rearrange_tiles testImg ((2 : Int), (2 : Int)) [1, 0, 3, 2]
        = .ok out1 ∧
      rearrange_tiles out1 ((2 : Int), (2 : Int)) [1, 0, 3, 2] = .ok out2 ∧
      ∀ x y, x < testImg.width → y < testImg.height →
        getPix out2 x y = getPix testImg x y) :=
  ⟨by decide, claim_C7_inverse testImg 2 2 [1, 0, 3, 2] [1, 0, 3, 2]
    (by decide) (by decide) (by decide) (by decide) (by decide) (by decide)
    (by decide) (by decide) (by decide)⟩
